import Mathlib

/-!
Verification of the training/inference harness in
`duplicate_questions/models/base_tf_model.py` (class `BaseTFModel`).

The embedding abstracts the ML framework exactly where the code delegates to
it: the session-execution calls, summary writers and the graph are opaque,
and the batch generators (which the repository's documentation requires to be
finite) are abstracted as finite lists, or as per-epoch batch counts when only
the number of batches matters.  Validation losses, which in the code are the
floating-point results of session runs, are modelled as rationals.  The
observable behaviour of `BaseTFModel.train` (which framework calls it makes,
in which order, with which step numbers) is modelled as a trace of events, and
the epoch/step bookkeeping, the periodic triggers and the early-stopping logic
are translated statement by statement from the source.
-/

namespace BaseTFModel

/-- The externally observable actions performed inside `BaseTFModel.train`,
each tagged with the global step value current when it happens.  A validation
evaluation records whether it is the unconditional end-of-epoch one (line
221 of the source) or a periodic in-step one (line 208). -/
inductive Event where
  | runSession (g : ℕ)
  | writeSummary (g : ℕ)
  | validate (g : ℕ) (epochEnd : Bool)
  | saveCkpt (g : ℕ)
deriving DecidableEq

/-- The body of the inner loop of `train` (source lines 187-216) with the
three periodic triggers already decided: the gradient-update `sess.run` always
happens first; the train summary is written in the same branch when the log
trigger fires; then the in-step validation evaluation when the validation
trigger fires; then the checkpoint save when the save trigger fires. -/
def stepTraceFlags (g : ℕ) (logB valB saveB : Bool) : List Event :=
  [Event.runSession g]
    ++ (if logB then [Event.writeSummary g] else [])
    ++ (if valB then [Event.validate g false] else [])
    ++ (if saveB then [Event.saveCkpt g] else [])

/-- One training step at global step `g`: the triggers are the modulo tests
`global_step % log_period == 0`, `global_step % val_period == 0` and
`global_step % save_period == 0` from the source. -/
def stepTrace (g valPeriod logPeriod savePeriod : ℕ) : List Event :=
  stepTraceFlags g (g % logPeriod == 0) (g % valPeriod == 0) (g % savePeriod == 0)

/-- One epoch of `train`: `k` training steps (the batches the train generator
yields this epoch), starting after `g0` previously executed steps, followed by
the unconditional end-of-epoch checkpoint save (source line 220) and
end-of-epoch validation evaluation (source line 221).  The global step read
in step `i` is `g0 + i + 1`: the training op advances the graph's
`global_step` variable once per gradient update, and the code reads
`sess.run(self.global_step) + 1` before the update.  After the loop the
Python-level `global_step` variable holds `g0 + k` (also when `k = 0`, in
which case it keeps its previous value `g0`). -/
def epochTrace (g0 k valPeriod logPeriod savePeriod : ℕ) : List Event :=
  ((List.range k).map (fun i => stepTrace (g0 + i + 1) valPeriod logPeriod savePeriod)).flatten
    ++ [Event.saveCkpt (g0 + k), Event.validate (g0 + k) true]

/-- Python's `min` over a list of losses, `none` for the empty list (the code
only calls `min` on a non-empty list and substitutes `math.inf` otherwise). -/
def minLoss : List ℚ → Option ℚ
  | [] => none
  | x :: xs =>
    match minLoss xs with
    | none => some x
    | some m => some (min x m)

/-- The end-of-epoch early-stopping decision, source lines 230-249: the
current loss is appended to `epoch_validation_losses`, the slice
`epoch_validation_losses[:-(patience + 1)]` is taken (everything except the
most recent `patience + 1` entries), its minimum is `math.inf` when the slice
is empty, and training stops iff that minimum is `<=` the current loss.
`math.inf <= valLoss` is false for the (finite, rational-modelled) losses, so
the empty slice yields `false`. -/
def epochEndStop (prevLosses : List ℚ) (valLoss : ℚ) (patience : ℕ) : Bool :=
  let losses := prevLosses ++ [valLoss]
  match minLoss (losses.take (losses.length - (patience + 1))) with
  | none => false
  | some m => decide (m ≤ valLoss)

/-- The epoch loop of `train` (source lines 178-249), by recursion on the
number of remaining epochs.  `k e` is the number of batches the train
generator yields in epoch `e`; `el e` is the mean validation loss the
end-of-epoch evaluation returns in epoch `e` (the in-step evaluations return
values that the loop discards, so they do not appear in the state); `losses`
is `epoch_validation_losses`.  Returns the event trace and the number of
completed epochs. -/
def runTrain (k : ℕ → ℕ) (el : ℕ → ℚ) (vp lp sp pat : ℕ) :
    ℕ → ℕ → ℕ → List ℚ → List Event × ℕ
  | 0, _, _, _ => ([], 0)
  | fuel + 1, e, g, losses =>
    let tr := epochTrace g (k e) vp lp sp
    let loss := el e
    if epochEndStop losses loss pat then
      (tr, 1)
    else
      let rest := runTrain k el vp lp sp pat fuel (e + 1) (g + k e) (losses ++ [loss])
      (tr ++ rest.1, rest.2 + 1)

/-- `BaseTFModel.train`: run up to `numEpochs` epochs starting from global
step 0 with an empty loss history. -/
def train (k : ℕ → ℕ) (el : ℕ → ℚ) (vp lp sp pat numEpochs : ℕ) :
    List Event × ℕ :=
  runTrain k el vp lp sp pat numEpochs 0 0 []

/-- The end-of-epoch early-stopping decision as the specification describes
it: the minimum is computed over a sliding window of the most recent epoch
validation losses, the window size determined by the patience parameter
(`patience + 1` entries, matching the number of entries the code's slice
removes), and training stops iff that windowed minimum is `<=` the current
epoch's validation loss.  An empty window behaves as a minimum of infinity. -/
def specRecentWindowStop (prevLosses : List ℚ) (valLoss : ℚ) (patience : ℕ) : Bool :=
  match minLoss (prevLosses.drop (prevLosses.length - (patience + 1))) with
  | none => false
  | some m => decide (m ≤ valLoss)

/-- A concrete per-epoch validation-loss sequence used in concrete runs:
1, 2, 0, 0, 0, ... -/
def el3 : ℕ → ℚ := fun e => if e = 0 then 1 else if e = 1 then 2 else 0

/-- A concrete batch-count sequence: one train batch per epoch. -/
def k1 : ℕ → ℕ := fun _ => 1

/-- One training step's actions in the order the claim under scrutiny states
them: run session, maybe write summary, maybe save checkpoint, maybe evaluate
on validation — i.e. with the checkpoint save placed before the validation
evaluation. -/
def claimStepTrace (g valPeriod logPeriod savePeriod : ℕ) : List Event :=
  [Event.runSession g]
    ++ (if g % logPeriod == 0 then [Event.writeSummary g] else [])
    ++ (if g % savePeriod == 0 then [Event.saveCkpt g] else [])
    ++ (if g % valPeriod == 0 then [Event.validate g false] else [])

/-- A test batch as `BaseTFModel.predict` observes it through the framework:
running the session on its feed dict yields the batch's prediction array
(axis 0 = instances, each row a list of numbers) and the two encoding arrays
of its sentence pair (axis 0 = instances, axis 1 = features). -/
structure Batch where
  preds : List (List ℚ)
  encOne : List (List ℚ)
  encTwo : List (List ℚ)
deriving DecidableEq

/-- `np.concatenate(arrays, axis=0)` on a list of 2-d arrays (each a list of
rows): raises on an empty list of arrays, otherwise concatenates the rows. -/
def npConcatRows (arrays : List (List (List ℚ))) : Except String (List (List ℚ)) :=
  match arrays with
  | [] => Except.error "need at least one array to concatenate"
  | _ => Except.ok arrays.flatten

/-- `np.concatenate([a, b], axis=1)` on two 2-d arrays: raises unless the two
arrays have the same number of rows, otherwise appends rows pointwise. -/
def axis1Concat (a b : List (List ℚ)) : Except String (List (List ℚ)) :=
  if a.length = b.length then Except.ok (List.zipWith (· ++ ·) a b)
  else Except.error "all the input array dimensions must match"

/-- The batch loop of `BaseTFModel.predict` (source lines 298-307): for each
batch, in generator order, append the batch's prediction array to `y_pred`
and the axis-1 concatenation of its two encoding arrays to `encodings`. -/
def predictLoop : List Batch → Except String (List (List (List ℚ)) × List (List (List ℚ)))
  | [] => Except.ok ([], [])
  | b :: rest => do
    let enc ← axis1Concat b.encOne b.encTwo
    let (yps, encs) ← predictLoop rest
    Except.ok (b.preds :: yps, enc :: encs)

/-- `BaseTFModel.predict` (source lines 294-310): consume the finite test
batch generator, then flatten `y_pred` with `np.concatenate(..., axis=0)` and
likewise `encodings`. -/
def predict (batches : List Batch) : Except String (List (List ℚ) × List (List ℚ)) := do
  let (yPreds, encodings) ← predictLoop batches
  let yPredFlat ← npConcatRows yPreds
  let encodingsFlat ← npConcatRows encodings
  Except.ok (yPredFlat, encodingsFlat)

/-- The first component of `predict`'s result as the claim describes it: the
per-batch prediction arrays concatenated along axis 0 in generator order. -/
def specPredictions (batches : List Batch) : List (List ℚ) :=
  (batches.map Batch.preds).flatten

/-- The second component of `predict`'s result as the claim describes it: for
each instance, in generator order, the axis-1 concatenation of the encodings
of its two sentences. -/
def specEncodings (batches : List Batch) : List (List ℚ) :=
  (batches.map (fun b => List.zipWith (· ++ ·) b.encOne b.encTwo)).flatten

/-- A validation batch as `_evaluate_on_validation` observes it: its number
of instances, and the (mean-over-the-batch) accuracy and loss values that
running the session on its feed dict returns. -/
structure ValBatch where
  size : ℕ
  acc : ℚ
  loss : ℚ
deriving DecidableEq

/-- `np.mean` over a list of scalars. -/
def npMean (l : List ℚ) : ℚ := l.sum / (l.length : ℚ)

/-- `BaseTFModel._evaluate_on_validation` (source lines 312-347), restricted
to the values it returns: the `np.mean` of the per-batch accuracies and the
`np.mean` of the per-batch losses (the summary object only repackages these
two numbers). -/
def evaluateOnValidation (batches : List ValBatch) : ℚ × ℚ :=
  (npMean (batches.map ValBatch.acc), npMean (batches.map ValBatch.loss))

/-- Project a validation-evaluation event to its step number and
end-of-epoch flag. -/
def isValidation : Event → Option (ℕ × Bool)
  | Event.validate g b => some (g, b)
  | _ => none

/-- Project a checkpoint-save event to its step number. -/
def isCkptSave : Event → Option ℕ
  | Event.saveCkpt g => some g
  | _ => none

/-- The validation evaluations occurring in a trace, in order. -/
def validations (tr : List Event) : List (ℕ × Bool) :=
  tr.filterMap isValidation

/-- The checkpoint saves occurring in a trace, in order. -/
def ckptSaves (tr : List Event) : List ℕ :=
  tr.filterMap isCkptSave

/-- The number of training steps executed before epoch `e` begins, when
epoch `i` runs `k i` steps. -/
def stepsBefore (k : ℕ → ℕ) (e : ℕ) : ℕ := ∑ i ∈ Finset.range e, k i

/-- The number of training steps executed by the `j` epochs following epoch
`e` (inclusive). -/
def relSteps (k : ℕ → ℕ) (e j : ℕ) : ℕ := ∑ i ∈ Finset.range j, k (e + i)

lemma relSteps_zero (k : ℕ → ℕ) (e : ℕ) : relSteps k e 0 = 0 := by
  simp [relSteps]

lemma relSteps_succ (k : ℕ → ℕ) (e j : ℕ) :
    relSteps k e (j + 1) = k e + relSteps k (e + 1) j := by
  unfold relSteps
  rw [Finset.sum_range_succ']
  simp only [Nat.add_zero]
  rw [add_comm]
  congr 1
  refine Finset.sum_congr rfl fun i _ => ?_
  congr 1
  omega

lemma relSteps_base (k : ℕ → ℕ) (j : ℕ) : relSteps k 0 j = stepsBefore k j := by
  simp [relSteps, stepsBefore]

/-- The event trace of the epoch loop decomposes into one `epochTrace` per
completed epoch, each starting at the step count accumulated by the epochs
before it. -/
lemma runTrain_trace (k : ℕ → ℕ) (el : ℕ → ℚ) (vp lp sp pat : ℕ) :
    ∀ (fuel e g : ℕ) (losses : List ℚ),
      (runTrain k el vp lp sp pat fuel e g losses).1 =
        ((List.range (runTrain k el vp lp sp pat fuel e g losses).2).map
          (fun j => epochTrace (g + relSteps k e j) (k (e + j)) vp lp sp)).flatten := by
  intro fuel
  induction fuel with
  | zero => intro e g losses; simp [runTrain]
  | succ n ih =>
    intro e g losses
    by_cases hstop : epochEndStop losses (el e) pat
    · simp [runTrain, hstop, List.range_succ, relSteps_zero]
    · simp only [runTrain, hstop, if_false, Bool.false_eq_true]
      rw [ih (e + 1) (g + k e) (losses ++ [el e])]
      rw [List.range_succ_eq_map, List.map_cons, List.map_map, List.flatten_cons]
      simp only [relSteps_zero, Nat.add_zero]
      congr 2
      have hfun :
          (fun j => epochTrace (g + k e + relSteps k (e + 1) j) (k (e + 1 + j)) vp lp sp)
            = ((fun j => epochTrace (g + relSteps k e j) (k (e + j)) vp lp sp) ∘ Nat.succ) := by
        funext j
        simp only [Function.comp_apply, Nat.succ_eq_add_one]
        rw [relSteps_succ, ← Nat.add_assoc]
        have he : e + (j + 1) = e + 1 + j := by omega
        rw [he]
      rw [hfun]

lemma filterMap_flatten_eq {α β : Type} (f : α → Option β) (L : List (List α)) :
    (L.flatten).filterMap f = (L.map (·.filterMap f)).flatten := by
  induction L with
  | nil => simp
  | cons x xs ih => simp [List.filterMap_append, ih]

lemma flatten_ite_map {α β : Type} (p : α → Bool) (f : α → β) (l : List α) :
    (l.map (fun x => if p x then [f x] else [])).flatten = (l.filter p).map f := by
  induction l with
  | nil => simp
  | cons x xs ih => by_cases h : p x <;> simp [List.filter_cons, h, ih]

lemma validations_stepTrace (g vp lp sp : ℕ) :
    validations (stepTrace g vp lp sp) =
      if g % vp == 0 then [(g, false)] else [] := by
  unfold stepTrace stepTraceFlags validations
  cases hl : g % lp == 0 <;> cases hv : g % vp == 0 <;> cases hs : g % sp == 0 <;>
    simp [isValidation]

lemma ckptSaves_stepTrace (g vp lp sp : ℕ) :
    ckptSaves (stepTrace g vp lp sp) =
      if g % sp == 0 then [g] else [] := by
  unfold stepTrace stepTraceFlags ckptSaves
  cases hl : g % lp == 0 <;> cases hv : g % vp == 0 <;> cases hs : g % sp == 0 <;>
    simp [isCkptSave]

lemma validations_epochTrace (g0 kk vp lp sp : ℕ) :
    validations (epochTrace g0 kk vp lp sp) =
      (((List.range kk).map (fun i => g0 + i + 1)).filter (fun g => g % vp == 0)).map
          (fun g => (g, false))
        ++ [(g0 + kk, true)] := by
  unfold epochTrace
  rw [show validations
        ((((List.range kk).map (fun i => stepTrace (g0 + i + 1) vp lp sp)).flatten)
          ++ [Event.saveCkpt (g0 + kk), Event.validate (g0 + kk) true])
      = (((List.range kk).map (fun i => stepTrace (g0 + i + 1) vp lp sp)).flatten).filterMap
            isValidation
          ++ [(g0 + kk, true)] from by simp [validations, List.filterMap_append, isValidation]]
  congr 1
  rw [filterMap_flatten_eq, List.map_map]
  have hcomp :
      ((fun l => List.filterMap isValidation l) ∘ fun i => stepTrace (g0 + i + 1) vp lp sp)
        = fun i => if (g0 + i + 1) % vp == 0 then [((g0 + i + 1 : ℕ), false)] else [] := by
    funext i
    exact validations_stepTrace (g0 + i + 1) vp lp sp
  rw [hcomp, flatten_ite_map, List.filter_map, List.map_map]
  rfl

lemma ckptSaves_epochTrace (g0 kk vp lp sp : ℕ) :
    ckptSaves (epochTrace g0 kk vp lp sp) =
      ((List.range kk).map (fun i => g0 + i + 1)).filter (fun g => g % sp == 0)
        ++ [g0 + kk] := by
  unfold epochTrace
  rw [show ckptSaves
        ((((List.range kk).map (fun i => stepTrace (g0 + i + 1) vp lp sp)).flatten)
          ++ [Event.saveCkpt (g0 + kk), Event.validate (g0 + kk) true])
      = (((List.range kk).map (fun i => stepTrace (g0 + i + 1) vp lp sp)).flatten).filterMap
            isCkptSave
          ++ [g0 + kk] from by simp [ckptSaves, List.filterMap_append, isCkptSave]]
  congr 1
  rw [filterMap_flatten_eq, List.map_map]
  have hcomp :
      ((fun l => List.filterMap isCkptSave l) ∘ fun i => stepTrace (g0 + i + 1) vp lp sp)
        = fun i => if (g0 + i + 1) % sp == 0 then [(g0 + i + 1 : ℕ)] else [] := by
    funext i
    exact ckptSaves_stepTrace (g0 + i + 1) vp lp sp
  rw [hcomp, flatten_ite_map, List.filter_map]
  rfl

/-- The validation evaluations the claim predicts for epoch `e`: one at every
step of the epoch whose global step value is a multiple of `val_period` (the
modulo-based periodic trigger), and one, unconditionally, at the end of the
epoch. -/
def specEpochValidations (k : ℕ → ℕ) (vp : ℕ) (e : ℕ) : List (ℕ × Bool) :=
  (((List.range (k e)).map (fun i => stepsBefore k e + i + 1)).filter
      (fun g => g % vp == 0)).map (fun g => (g, false))
    ++ [(stepsBefore k e + k e, true)]

/-- The checkpoint saves the claim predicts for epoch `e`: one at every step
of the epoch whose global step value is a multiple of `save_period`, and one,
unconditionally, at the end of the epoch. -/
def specEpochCheckpoints (k : ℕ → ℕ) (sp : ℕ) (e : ℕ) : List ℕ :=
  ((List.range (k e)).map (fun i => stepsBefore k e + i + 1)).filter (fun g => g % sp == 0)
    ++ [stepsBefore k e + k e]

/-- C3: during `train`, validation is evaluated exactly at those training
steps whose global step value is a multiple of `val_period`, and additionally
once, unconditionally, at the end of every (executed) epoch; at no other
point is validation evaluated. -/
theorem train_validation_cadence (k : ℕ → ℕ) (el : ℕ → ℚ) (vp lp sp pat ne : ℕ)
    (_hv : 0 < vp) :
    validations (train k el vp lp sp pat ne).1 =
      ((List.range (train k el vp lp sp pat ne).2).map (specEpochValidations k vp)).flatten := by
  have hfun : ((fun l => List.filterMap isValidation l) ∘
      fun j => epochTrace (0 + relSteps k 0 j) (k (0 + j)) vp lp sp)
      = specEpochValidations k vp := by
    funext j
    simp only [Function.comp_apply, Nat.zero_add]
    rw [relSteps_base]
    exact validations_epochTrace (stepsBefore k j) (k j) vp lp sp
  unfold train
  rw [runTrain_trace]
  unfold validations
  rw [filterMap_flatten_eq, List.map_map, hfun]

/-- Witness for C3 at a concrete run: one step per epoch, one epoch,
`val_period = 2`. -/
theorem train_validation_cadence_witness :
    0 < 2 ∧
      validations (train k1 el3 2 10 250 0 1).1 =
        ((List.range (train k1 el3 2 10 250 0 1).2).map (specEpochValidations k1 2)).flatten :=
  ⟨by decide, train_validation_cadence k1 el3 2 10 250 0 1 (by decide)⟩

/-- C4: during `train`, a model checkpoint is written exactly at those
training steps whose global step value is a multiple of `save_period`, and
additionally once, unconditionally, at the end of every (executed) epoch; no
checkpoint is written at any other point. -/
theorem train_checkpoint_cadence (k : ℕ → ℕ) (el : ℕ → ℚ) (vp lp sp pat ne : ℕ)
    (_hs : 0 < sp) :
    ckptSaves (train k el vp lp sp pat ne).1 =
      ((List.range (train k el vp lp sp pat ne).2).map (specEpochCheckpoints k sp)).flatten := by
  have hfun : ((fun l => List.filterMap isCkptSave l) ∘
      fun j => epochTrace (0 + relSteps k 0 j) (k (0 + j)) vp lp sp)
      = specEpochCheckpoints k sp := by
    funext j
    simp only [Function.comp_apply, Nat.zero_add]
    rw [relSteps_base]
    exact ckptSaves_epochTrace (stepsBefore k j) (k j) vp lp sp
  unfold train
  rw [runTrain_trace]
  unfold ckptSaves
  rw [filterMap_flatten_eq, List.map_map, hfun]

/-- Witness for C4 at a concrete run: one step per epoch, one epoch,
`save_period = 2`. -/
theorem train_checkpoint_cadence_witness :
    0 < 2 ∧
      ckptSaves (train k1 el3 250 10 2 0 1).1 =
        ((List.range (train k1 el3 250 10 2 0 1).2).map (specEpochCheckpoints k1 2)).flatten :=
  ⟨by decide, train_checkpoint_cadence k1 el3 250 10 2 0 1 (by decide)⟩

/-- The early-stopping decision the code reaches at the end of epoch `e` of a
run whose end-of-epoch validation losses are given by `el`: by then
`epoch_validation_losses` holds the losses of epochs `0..e-1`, and the loss of
epoch `e` is the current one. -/
def stopAt (el : ℕ → ℚ) (pat e : ℕ) : Bool :=
  epochEndStop ((List.range e).map el) (el e) pat

lemma losses_snoc (el : ℕ → ℚ) (e : ℕ) :
    (List.range e).map el ++ [el e] = (List.range (e + 1)).map el := by
  rw [List.range_succ, List.map_append, List.map_singleton]

/-- Characterization of the number of completed epochs: it never exceeds the
remaining-epoch budget, the stop rule fired at no epoch strictly before the
last executed one, and whenever the budget was not exhausted the stop rule
fired at the last executed epoch. -/
lemma runTrain_count (k : ℕ → ℕ) (el : ℕ → ℚ) (vp lp sp pat : ℕ) :
    ∀ (fuel e g : ℕ),
      (runTrain k el vp lp sp pat fuel e g ((List.range e).map el)).2 ≤ fuel ∧
      (∀ j, j + 1 < (runTrain k el vp lp sp pat fuel e g ((List.range e).map el)).2 →
        stopAt el pat (e + j) = false) ∧
      ((runTrain k el vp lp sp pat fuel e g ((List.range e).map el)).2 < fuel →
        0 < (runTrain k el vp lp sp pat fuel e g ((List.range e).map el)).2 ∧
        stopAt el pat
          (e + (runTrain k el vp lp sp pat fuel e g ((List.range e).map el)).2 - 1) = true) := by
  intro fuel
  induction fuel with
  | zero =>
    intro e g
    refine ⟨by simp [runTrain], ?_, ?_⟩ <;> simp [runTrain]
  | succ n ih =>
    intro e g
    by_cases hstop : epochEndStop ((List.range e).map el) (el e) pat
    · simp only [runTrain, hstop, if_true]
      refine ⟨by omega, ?_, ?_⟩
      · intro j hj
        omega
      · intro _
        refine ⟨by omega, ?_⟩
        have he : e + 1 - 1 = e := by omega
        rw [he]
        exact hstop
    · have hre : (List.range e).map el ++ [el e] = (List.range (e + 1)).map el :=
        losses_snoc el e
      simp only [runTrain, hstop, if_false, Bool.false_eq_true, hre]
      obtain ⟨h1, h2, h3⟩ := ih (e + 1) (g + k e)
      refine ⟨by omega, ?_, ?_⟩
      · intro j hj
        match j with
        | 0 =>
          simpa [stopAt] using hstop
        | j' + 1 =>
          have := h2 j' (by omega)
          have harg : e + (j' + 1) = e + 1 + j' := by omega
          rw [harg]
          exact this
      · intro hlt
        have hres := h3 (by omega)
        refine ⟨by omega, ?_⟩
        have harg :
            e + ((runTrain k el vp lp sp pat n (e + 1) (g + k e)
              ((List.range (e + 1)).map el)).2 + 1) - 1
            = e + 1 + (runTrain k el vp lp sp pat n (e + 1) (g + k e)
              ((List.range (e + 1)).map el)).2 - 1 := by omega
        rw [harg]
        exact hres.2

/-- C6: `train` terminates (the model is a total function of the finite batch
counts and loss sequence), executes at most `num_epochs` epochs, and executes
fewer only when the early-stopping check fired at its last executed epoch. -/
theorem train_epoch_count_bound (k : ℕ → ℕ) (el : ℕ → ℚ) (vp lp sp pat ne : ℕ) :
    (train k el vp lp sp pat ne).2 ≤ ne ∧
      ((train k el vp lp sp pat ne).2 < ne →
        stopAt el pat ((train k el vp lp sp pat ne).2 - 1) = true) := by
  have h := runTrain_count k el vp lp sp pat ne 0 0
  simp only [List.range_zero, List.map_nil, Nat.zero_add] at h
  exact ⟨h.1, fun hlt => (h.2.2 hlt).2⟩

/-- Witness for C6 at a concrete run that stops early: patience 0 and losses
1, 2, ... stop training after the second of five epochs. -/
theorem train_epoch_count_bound_witness :
    (train k1 el3 250 10 250 0 5).2 ≤ 5 ∧
      stopAt el3 0 ((train k1 el3 250 10 250 0 5).2 - 1) = true :=
  ⟨(train_epoch_count_bound k1 el3 250 10 250 0 5).1,
    (train_epoch_count_bound k1 el3 250 10 250 0 5).2 (by decide)⟩

/-- C1 (counterexample): with patience 1 and per-epoch validation losses
1, 2, 0, the claimed rule — minimum over a sliding window of the most recent
epoch validation losses — fires at the end of the second epoch (its windowed
minimum 1 is at most the current loss 2), yet `train` does not stop there: it
completes all three epochs, because the code's minimum is over the losses
that are *older* than the most recent `patience + 1` ones, a set that is
still empty at that point. -/
theorem train_recent_window_counterexample :
    specRecentWindowStop ((List.range 1).map el3) (el3 1) 1 = true ∧
      (train k1 el3 250 10 250 1 3).2 = 3 := by decide

/-- The early-stopping rule actually implemented: the minimum is computed
over all recorded epoch validation losses *excluding* the most recent
`patience + 1` entries (a growing prefix of the history, not a sliding window
of recent entries); when that set is empty the minimum counts as infinity and
training continues; training stops iff that minimum is at most the current
epoch's validation loss. -/
def olderLossesStop (el : ℕ → ℚ) (pat e : ℕ) : Bool :=
  let losses := (List.range (e + 1)).map el
  match minLoss (losses.take (losses.length - (pat + 1))) with
  | none => false
  | some m => decide (m ≤ el e)

lemma stopAt_eq_olderLossesStop (el : ℕ → ℚ) (pat e : ℕ) :
    stopAt el pat e = olderLossesStop el pat e := by
  unfold stopAt epochEndStop olderLossesStop
  rw [losses_snoc]

/-- C1 (amended): at the end of every epoch, `train` stops early exactly when
the minimum over all recorded epoch validation losses excluding the most
recent `patience + 1` entries (infinity when there are none) is at most the
current epoch's validation loss: the rule fired at no epoch strictly before
the last executed one, and whenever fewer than `num_epochs` epochs ran, the
rule fired at the last executed epoch. -/
theorem train_stop_rule_older_losses (k : ℕ → ℕ) (el : ℕ → ℚ) (vp lp sp pat ne : ℕ) :
    (∀ j, j + 1 < (train k el vp lp sp pat ne).2 → olderLossesStop el pat j = false) ∧
      ((train k el vp lp sp pat ne).2 < ne →
        olderLossesStop el pat ((train k el vp lp sp pat ne).2 - 1) = true) := by
  have h := runTrain_count k el vp lp sp pat ne 0 0
  simp only [List.range_zero, List.map_nil, Nat.zero_add] at h
  constructor
  · intro j hj
    rw [← stopAt_eq_olderLossesStop]
    exact h.2.1 j hj
  · intro hlt
    rw [← stopAt_eq_olderLossesStop]
    exact (h.2.2 hlt).2

/-- Witness for C1's amended rule at a concrete run: with patience 0 and
losses 1, 2, the rule does not fire at epoch 0 and fires at epoch 1, where
the run stops. -/
theorem train_stop_rule_older_losses_witness :
    olderLossesStop el3 0 0 = false ∧ olderLossesStop el3 0 1 = true :=
  ⟨(train_stop_rule_older_losses k1 el3 250 10 250 0 5).1 0 (by decide),
    by
      have h := (train_stop_rule_older_losses k1 el3 250 10 250 0 5).2 (by decide)
      simpa using h⟩

lemma epochEndStop_short (losses : List ℚ) (loss : ℚ) (pat : ℕ)
    (h : losses.length ≤ pat) : epochEndStop losses loss pat = false := by
  unfold epochEndStop
  have h0 : losses.length - pat = 0 := by omega
  simp [h0, minLoss]

lemma runTrain_min_epochs (k : ℕ → ℕ) (el : ℕ → ℚ) (vp lp sp pat : ℕ) :
    ∀ (fuel e g : ℕ) (losses : List ℚ), losses.length = e →
      min fuel (pat + 2 - e) ≤ (runTrain k el vp lp sp pat fuel e g losses).2 := by
  intro fuel
  induction fuel with
  | zero => intro e g losses _; simp [runTrain]
  | succ n ih =>
    intro e g losses hlen
    by_cases hstop : epochEndStop losses (el e) pat
    · have he : pat + 1 ≤ e := by
        by_contra hc
        push_neg at hc
        rw [epochEndStop_short losses (el e) pat (by omega)] at hstop
        simp at hstop
      simp [runTrain, hstop]
      omega
    · have h := ih (e + 1) (g + k e) (losses ++ [el e]) (by simp [hlen])
      simp [runTrain, hstop]
      omega

/-- C8: `train` never stops early during the first `patience + 1` epochs,
because with at most `patience` previous losses recorded the slice excluding
the last `patience + 1` entries is empty and the stopping branch is
unreachable (the comparison minimum defaults to infinity); hence at least
`min num_epochs (patience + 2)` epochs are always completed. -/
theorem train_completes_min_epochs (k : ℕ → ℕ) (el : ℕ → ℚ) (vp lp sp pat ne : ℕ)
    (losses : List ℚ) (loss : ℚ) (hshort : losses.length ≤ pat) :
    epochEndStop losses loss pat = false ∧
      min ne (pat + 2) ≤ (train k el vp lp sp pat ne).2 := by
  refine ⟨epochEndStop_short losses loss pat hshort, ?_⟩
  have h := runTrain_min_epochs k el vp lp sp pat ne 0 0 [] rfl
  simpa using h

/-- Witness for C8 at a concrete run: with patience 0 the empty loss history
cannot trigger a stop, and at least `min 5 2 = 2` of the 5 epochs complete. -/
theorem train_completes_min_epochs_witness :
    ([] : List ℚ).length ≤ 0 ∧
      (epochEndStop [] 0 0 = false ∧ min 5 2 ≤ (train k1 el3 250 10 250 0 5).2) :=
  ⟨by decide, train_completes_min_epochs k1 el3 250 10 250 0 5 [] 0 (by decide)⟩

/-- C2 (counterexample): at global step 1 with all three periods equal to 1,
a training step performs run-session, write-summary, validate,
save-checkpoint in that order — not the claimed run-session, write-summary,
save-checkpoint, validate order. -/
theorem step_order_counterexample :
    stepTrace 1 1 1 1 ≠ claimStepTrace 1 1 1 1 := by decide

/-- C2 (amended): every training step performs its actions in the fixed
order: first run the session on the training batch's feed dict, then (if
triggered) write a summary, then (if triggered) evaluate on validation data,
then (if triggered) save a checkpoint — the step's actions always form a
subsequence of that full sequence, starting with the session run.  (The
comparison against the windowed minimum happens only at the end of an epoch,
never inside a step.) -/
theorem step_action_order (g vp lp sp : ℕ) :
    (stepTrace g vp lp sp).head? = some (Event.runSession g) ∧
      List.Sublist (stepTrace g vp lp sp)
        [Event.runSession g, Event.writeSummary g, Event.validate g false,
          Event.saveCkpt g] := by
  have hfilter : ∀ lB vB sB : Bool,
      stepTraceFlags g lB vB sB =
        [Event.runSession g, Event.writeSummary g, Event.validate g false,
          Event.saveCkpt g].filter
          (fun ev => match ev with
            | Event.runSession _ => true
            | Event.writeSummary _ => lB
            | Event.validate _ _ => vB
            | Event.saveCkpt _ => sB) := by
    intro lB vB sB
    cases lB <;> cases vB <;> cases sB <;> simp [stepTraceFlags]
  unfold stepTrace
  rw [hfilter]
  exact ⟨by simp, List.filter_sublist _⟩

/-- Modelled from the spec: the checkpoint retention behaviour of the
framework saver that `train` constructs with `max_to_keep = max_ckpts_to_keep`
(source line 174).  The saver is framework code, not part of this repository's
sources; following the spec's description of checkpoint retention, each save
appends the new checkpoint to the retained ones and, when more than `maxKeep`
would then be retained, drops the oldest retained checkpoint. -/
def saverSave (maxKeep : ℕ) (kept : List ℕ) (g : ℕ) : List ℕ :=
  let grown := kept ++ [g]
  if maxKeep < grown.length then grown.drop (grown.length - maxKeep) else grown

/-- The checkpoints retained after processing a list of saves in order,
starting with none retained. -/
def retainedAfter (maxKeep : ℕ) (saves : List ℕ) : List ℕ :=
  saves.foldl (saverSave maxKeep) []

lemma saverSave_length_le (maxKeep : ℕ) (kept : List ℕ) (g : ℕ)
    (h : kept.length ≤ maxKeep) : (saverSave maxKeep kept g).length ≤ maxKeep := by
  unfold saverSave
  by_cases hlt : maxKeep < (kept ++ [g]).length
  · rw [if_pos hlt]
    simp only [List.length_drop]
    omega
  · rw [if_neg hlt]
    omega

lemma retained_foldl_le (maxKeep : ℕ) :
    ∀ (saves kept : List ℕ), kept.length ≤ maxKeep →
      (saves.foldl (saverSave maxKeep) kept).length ≤ maxKeep := by
  intro saves
  induction saves with
  | nil => intro kept h; simpa using h
  | cons s rest ih =>
    intro kept h
    simp only [List.foldl_cons]
    exact ih _ (saverSave_length_le maxKeep kept s h)

/-- C7: throughout any run of `train`, the retained checkpoints never exceed
`max_ckpts_to_keep`: after any number of the run's checkpoint saves at most
`max_ckpts_to_keep` checkpoints are retained, and a save performed while
exactly `max_ckpts_to_keep` are retained drops the oldest retained one. -/
theorem checkpoint_retention_bound (k : ℕ → ℕ) (el : ℕ → ℚ)
    (vp lp sp pat ne maxKeep n : ℕ) (kept : List ℕ) (g : ℕ)
    (hpos : 0 < maxKeep) (hfull : kept.length = maxKeep) :
    (retainedAfter maxKeep ((ckptSaves (train k el vp lp sp pat ne).1).take n)).length
        ≤ maxKeep ∧
      saverSave maxKeep kept g = kept.drop 1 ++ [g] := by
  constructor
  · exact retained_foldl_le maxKeep _ [] (by simp)
  · have hlt : maxKeep < (kept ++ [g]).length := by
      simp only [List.length_append, List.length_singleton]
      omega
    have hone : (kept ++ [g]).length - maxKeep = 1 := by
      simp only [List.length_append, List.length_singleton]
      omega
    unfold saverSave
    rw [if_pos hlt, hone]
    cases kept with
    | nil =>
      exfalso
      simp only [List.length_nil] at hfull
      omega
    | cons a t => simp

/-- Witness for C7 at a concrete run with `max_ckpts_to_keep = 2`: the
retained checkpoints after the first five saves number at most two, and
saving with `[7, 9]` retained drops checkpoint 7. -/
theorem checkpoint_retention_bound_witness :
    0 < 2 ∧ ([7, 9] : List ℕ).length = 2 ∧
      ((retainedAfter 2 ((ckptSaves (train k1 el3 1 1 1 0 3).1).take 5)).length ≤ 2 ∧
        saverSave 2 [7, 9] 11 = ([7, 9] : List ℕ).drop 1 ++ [11]) :=
  ⟨by decide, by decide,
    checkpoint_retention_bound k1 el3 1 1 1 0 3 2 5 [7, 9] 11 (by decide) (by decide)⟩

lemma predictLoop_ok (batches : List Batch)
    (henc : ∀ b ∈ batches, b.encOne.length = b.encTwo.length) :
    predictLoop batches =
      Except.ok (batches.map Batch.preds,
        batches.map (fun b => List.zipWith (· ++ ·) b.encOne b.encTwo)) := by
  induction batches with
  | nil => rfl
  | cons b rest ih =>
    have hb : b.encOne.length = b.encTwo.length := henc b (by simp)
    have hrest := ih (fun x hx => henc x (by simp [hx]))
    simp [predictLoop, axis1Concat, hb, hrest, Bind.bind, Except.bind]

/-- C5: for every finite test batch generator yielding at least one batch,
each batch's two encoding arrays having one row per instance, `predict`
consumes the whole generator and returns the per-batch prediction arrays
concatenated along axis 0 in generator order, paired with, for each instance
in the same order, the axis-1 concatenation of the encodings of its two
sentences. -/
theorem predict_concatenates_batches (batches : List Batch)
    (hne : batches ≠ [])
    (henc : ∀ b ∈ batches, b.encOne.length = b.encTwo.length) :
    predict batches = Except.ok (specPredictions batches, specEncodings batches) := by
  unfold predict
  rw [predictLoop_ok batches henc]
  cases batches with
  | nil => exact absurd rfl hne
  | cons b rest =>
    simp [npConcatRows, specPredictions, specEncodings, Bind.bind, Except.bind]

/-- A concrete test batch: two instances with predictions `[1]`, `[2]` and
sentence encodings `[3]`, `[4]` and `[5]`, `[6]`. -/
def b1 : Batch := ⟨[[1], [2]], [[3], [4]], [[5], [6]]⟩

/-- Witness for C5 on the single concrete batch `b1`. -/
theorem predict_concatenates_batches_witness :
    [b1] ≠ [] ∧ predict [b1] = Except.ok (specPredictions [b1], specEncodings [b1]) :=
  ⟨by simp, predict_concatenates_batches [b1] (by simp) (by decide)⟩

/-- C10: if the test batch generator yields no batches, `predict` fails with
the error `np.concatenate` raises on an empty list of arrays, rather than
returning a pair of empty arrays. -/
theorem predict_empty_generator_error :
    predict [] = Except.error "need at least one array to concatenate" := rfl

/-- C9: the validation accuracy and loss returned by
`_evaluate_on_validation` are the unweighted arithmetic means of the
per-batch accuracy and loss values — each is the per-batch sum divided by the
number of batches, and the result is invariant under any reassignment of the
batches' instance counts, so every batch carries equal weight no matter how
many instances it contains. -/
theorem evaluate_unweighted_batch_mean (batches : List ValBatch)
    (resize : ValBatch → ℕ) (_hne : batches ≠ []) :
    evaluateOnValidation batches =
      ((batches.map ValBatch.acc).sum / (batches.length : ℚ),
        (batches.map ValBatch.loss).sum / (batches.length : ℚ)) ∧
      evaluateOnValidation (batches.map fun b => ⟨resize b, b.acc, b.loss⟩) =
        evaluateOnValidation batches := by
  constructor
  · simp [evaluateOnValidation, npMean]
  · have hacc :
        (ValBatch.acc ∘ fun b => (⟨resize b, b.acc, b.loss⟩ : ValBatch)) = ValBatch.acc := by
      funext b; rfl
    have hloss :
        (ValBatch.loss ∘ fun b => (⟨resize b, b.acc, b.loss⟩ : ValBatch)) = ValBatch.loss := by
      funext b; rfl
    simp [evaluateOnValidation, npMean, List.map_map, hacc, hloss]

/-- A concrete validation run: a batch of two instances with accuracy 1 and
loss 3, then a batch of one instance with accuracy 0 and loss 5. -/
def vb2 : List ValBatch := [⟨2, 1, 3⟩, ⟨1, 0, 5⟩]

/-- Witness for C9 on the concrete batches `vb2`, zeroing out the sizes. -/
theorem evaluate_unweighted_batch_mean_witness :
    vb2 ≠ [] ∧
      (evaluateOnValidation vb2 =
          ((vb2.map ValBatch.acc).sum / (vb2.length : ℚ),
            (vb2.map ValBatch.loss).sum / (vb2.length : ℚ)) ∧
        evaluateOnValidation (vb2.map fun b => ⟨0, b.acc, b.loss⟩) =
          evaluateOnValidation vb2) :=
  ⟨by simp [vb2], evaluate_unweighted_batch_mean vb2 (fun _ => 0) (by simp [vb2])⟩

end BaseTFModel
